import Mathlib

/-!
Shallow embedding of `balanced_sequence_generator.py`.

The transition matrix (`numpy` 2-D float array) is modelled as a function
`ℕ → ℕ → ℚ` together with an explicit dimension `N`; matrix entries are
rationals (floats are dyadic rationals, and every operation the program
performs on them — comparison, equality, ceiling, addition, division — is
exact on rationals).  The two process-wide random sources (`np.random` used
by the initializer and the `random` module used by the reinforcement step)
are modelled as streams `ℕ → ℚ` of draws; the generation functions thread
the `random`-module stream explicitly, advancing it by one on every call of
`random.random()`.  Python/numpy exceptions are modelled with `Except`:
`np.min` of an empty selection raises a `ValueError`, indexing `[0]` into an
empty `argwhere` result or `sequences[0]` of an empty list raises an
`IndexError`.
-/

/-- A transition matrix: entry `i j` of the numpy array. Cells outside the
`N × N` region are carried along but never read nor written by the program. -/
abbrev Mat : Type := ℕ → ℕ → ℚ

/-- A stream of draws from a random source; draw `k` is `σ k`. -/
abbrev RStream : Type := ℕ → ℚ

/-- Advance a random stream past its first draw. -/
def shift (σ : RStream) : RStream := fun i => σ (i + 1)

/-- A random stream is valid when every draw lies in `[0, 1)`, the range of
both `np.random.rand` and `random.random()`. -/
def ValidStream (σ : RStream) : Prop := ∀ i, 0 ≤ σ i ∧ σ i < 1

/-- The exceptions the Python code can actually raise in its core. -/
inductive PyError : Type
  | valueError : PyError
  | indexError : PyError
deriving DecidableEq

/-- `initialize_markov_chain(N)`: `np.random.rand(N, N)` fills cell `(i, j)`
with draw number `i * N + j` of the numpy stream (row-major), then
`np.fill_diagonal(markov_chain, 0)` zeroes the diagonal. -/
def initialize_markov_chain (N : ℕ) (σ : RStream) : Mat :=
  fun i j => if i = j then 0 else σ (i * N + j)

/-- The cells of an `N × N` matrix in row-major (C) order, the order in which
`np.nonzero` and `np.argwhere` scan a 2-D array. -/
def rowMajorCells (N : ℕ) : List (ℕ × ℕ) :=
  (List.range N).flatMap fun i => (List.range N).map fun j => (i, j)

/-- `np.nonzero(markov_chain)` as a list of coordinates: the cells holding a
nonzero value, in row-major order. -/
def nonzeroCells (N : ℕ) (mc : Mat) : List (ℕ × ℕ) :=
  (rowMajorCells N).filter fun p => decide (mc p.1 p.2 ≠ 0)

/-- `np.min` over a 1-D selection: a `ValueError` on an empty selection,
otherwise the least value. -/
def npMin (l : List ℚ) : Except PyError ℚ :=
  match l with
  | [] => .error .valueError
  | x :: xs => .ok (xs.foldl min x)

/-- `arr[0]` on the result of `np.argwhere`: an `IndexError` when there is no
match, otherwise the first match in row-major scan order. -/
def argwhereFirst (l : List (ℕ × ℕ)) (mc : Mat) (m : ℚ) : Except PyError (ℕ × ℕ) :=
  match l.find? (fun p => decide (mc p.1 p.2 = m)) with
  | none => .error .indexError
  | some p => .ok p

/-- Lines 68–69 of the source: `np.min(markov_chain[np.nonzero(markov_chain)])`
followed by `np.argwhere(markov_chain == min_value)[0]` — the seed search of
`generate_sequence`. -/
def seed_step (N : ℕ) (mc : Mat) : Except PyError (ℕ × ℕ) := do
  let m ← npMin ((nonzeroCells N mc).map fun p => mc p.1 p.2)
  argwhereFirst (rowMajorCells N) mc m

/-- Lines 76–77 of the source: the row search of the extension loop —
`np.min` over the nonzero entries of row `r`, then the first index of the row
holding that value. -/
def row_min_index (N : ℕ) (mc : Mat) (r : ℕ) : Except PyError ℕ := do
  let m ← npMin (((List.range N).filter fun j => decide (mc r j ≠ 0)).map fun j => mc r j)
  match (List.range N).find? (fun j => decide (mc r j = m)) with
  | none => .error .indexError
  | some j => .ok j

/-- The reinforcement rule of lines 73 and 79: `ceil(old_value) +
random.random()`, with the fresh draw passed in as `r`. -/
def reinforce (v r : ℚ) : ℚ := (⌈v⌉ : ℚ) + r

/-- In-place single-cell assignment `markov_chain[r, c] = v`. -/
def updateCell (mc : Mat) (r c : ℕ) (v : ℚ) : Mat :=
  fun i j => if i = r ∧ j = c then v else mc i j

/-- The loop `for i in range(2, N)` of `generate_sequence`, run for `k`
remaining iterations with `prev` the last element appended so far.  Returns
the elements the loop appends, the final matrix and the advanced random
stream. -/
def extend_loop (N : ℕ) (k : ℕ) (prev : ℕ) (mc : Mat) (σ : RStream) :
    Except PyError (List ℕ × Mat × RStream) :=
  match k with
  | 0 => .ok ([], mc, σ)
  | k + 1 => do
    let j ← row_min_index N mc prev
    let mc1 := updateCell mc prev j (reinforce (mc prev j) (σ 0))
    let (rest, mc2, σ2) ← extend_loop N k j mc1 (shift σ)
    .ok (j :: rest, mc2, σ2)

/-- `generate_sequence(N, markov_chain)`: seed search, seed reinforcement,
then the extension loop; returns the sequence together with the mutated
matrix and the advanced `random`-module stream. -/
def generate_sequence (N : ℕ) (mc : Mat) (σ : RStream) :
    Except PyError (List ℕ × Mat × RStream) := do
  let rc ← seed_step N mc
  let mc1 := updateCell mc rc.1 rc.2 (reinforce (mc rc.1 rc.2) (σ 0))
  let (rest, mc2, σ2) ← extend_loop N (N - 2) rc.2 mc1 (shift σ)
  .ok (rc.1 :: rc.2 :: rest, mc2, σ2)

/-- `generate_sequences(N, M, markov_chain)`: the loop `for i in range(M)`
threading the shared, persistently mutated matrix through the calls. -/
def generate_sequences (N M : ℕ) (mc : Mat) (σ : RStream) :
    Except PyError (List (List ℕ) × Mat × RStream) :=
  match M with
  | 0 => .ok ([], mc, σ)
  | M + 1 => do
    let (s, mc1, σ1) ← generate_sequence N mc σ
    let (ss, mc2, σ2) ← generate_sequences N M mc1 σ1
    .ok (s :: ss, mc2, σ2)

/-- `transition_probability_matrix[sequence[i], sequence[i+1]] += 1`. -/
def bump (m : Mat) (r c : ℕ) : Mat :=
  fun i j => if i = r ∧ j = c then m i j + 1 else m i j

/-- The inner counting loop `for i in range(N-1)` of
`calculate_transition_probability_matrix`, over one sequence.  List indexing
is total with default `0`; the program only ever runs it on sequences of
length `N` produced by the generator, where the default is never consulted. -/
def count_pairs (N : ℕ) (s : List ℕ) (m : Mat) : Mat :=
  (List.range (N - 1)).foldl (fun acc i => bump acc (s.getD i 0) (s.getD (i + 1) 0)) m

/-- `np.sum(transition_probability_matrix[i])`: the sum of row `i` of the
`N × N` matrix. -/
def row_sum (N : ℕ) (m : Mat) (i : ℕ) : ℚ :=
  ((List.range N).map fun j => m i j).sum

/-- The normalization loop: each row divided by its own sum.  (`numpy` turns
a zero-sum row into `NaN`s; in `ℚ` division by zero yields `0` — no claim
below depends on the value of a zero-sum row.) -/
def normalize_rows (N : ℕ) (m : Mat) : Mat :=
  fun i j => m i j / row_sum N m i

/-- `calculate_transition_probability_matrix(sequences)`: `len(sequences[0])`
raises an `IndexError` on an empty set; otherwise the counts of all
consecutive pairs, rows normalized by their sums. -/
def calculate_transition_probability_matrix (sequences : List (List ℕ)) :
    Except PyError (ℕ × Mat) :=
  match sequences with
  | [] => .error .indexError
  | s0 :: _ =>
    let N := s0.length
    .ok (N, normalize_rows N (sequences.foldl (fun m s => count_pairs N s m) fun _ _ => 0))

/-- The core pipeline of `generate_balanced_sequences(N, M, subfolder)` with
the file-writing collaborators stripped: initialize, generate the `M`
sequences against the shared matrix, derive the probability matrix. -/
def generate_balanced_sequences (N M : ℕ) (σnp σpy : RStream) :
    Except PyError (List (List ℕ) × ℕ × Mat) := do
  let mc := initialize_markov_chain N σnp
  let (sequences, _, _) ← generate_sequences N M mc σpy
  let (n, tpm) ← calculate_transition_probability_matrix sequences
  .ok (sequences, n, tpm)

/-- The transitions of a sequence, in order: the list of consecutive pairs.
For `s = [a, b, c]` this is `[(a, b), (b, c)]`. -/
def transitionsOf (s : List ℕ) : List (ℕ × ℕ) := s.zip s.tail

/-- Applying the reinforcement rule once per listed transition, in order, each
reinforcement drawing the next value of the random stream.  `generate_sequence`
is proved below to transform the matrix exactly this way. -/
def applyTransitions (mc : Mat) : List (ℕ × ℕ) → RStream → Mat
  | [], _ => mc
  | (r, c) :: rest, σ =>
    applyTransitions (updateCell mc r c (reinforce (mc r c) (σ 0))) rest (shift σ)

/-- The transition-count matrix exactly as the spec words it: cell `(r, c)`
counts, over all sequences, the positions `i < N - 1` whose consecutive pair
`(s[i], s[i+1])` equals `(r, c)`. -/
def spec_transition_count (N : ℕ) (sequences : List (List ℕ)) : Mat :=
  fun r c =>
    ((sequences.map fun s =>
      ((List.range (N - 1)).filter fun i =>
        decide (s.getD i 0 = r ∧ s.getD (i + 1) 0 = c)).length).sum : ℕ)

/-- A concrete numpy stream for concrete runs with `N = 2`: it makes the
initializer produce off-diagonal entries `1/4` at `(0, 1)` and `1/2` at
`(1, 0)`.  All draws lie in `[0, 1)`. -/
def sigmaW : RStream := fun k => if k = 1 then mkRat 1 4 else if k = 2 then mkRat 1 2 else 0

/-- A concrete reinforcement stream: every draw is `0`, which lies in `[0, 1)`. -/
def sigmaZero : RStream := fun _ => 0

/-- A concrete stream with every draw `1/2 ∈ [0, 1)`. -/
def sigmaHalf : RStream := fun _ => mkRat 1 2

/-- A concrete numpy stream for `N = 2` under which `np.random.rand` draws an
exact `0.0` for cell `(0, 1)` and `1/2` for cell `(1, 0)`; both draws lie in
`[0, 1)`, the documented range of `np.random.rand`. -/
def sigmaC3 : RStream := fun k => if k = 2 then mkRat 1 2 else 0

/-- A concrete numpy stream for `N = 3`: the initializer fills row-major cell
`(i, j)` with draw `3 * i + j`, giving off-diagonal entries
`(0,1) ↦ 1/10`, `(0,2) ↦ 1/2`, `(1,0) ↦ 1/5`, `(1,2) ↦ 9/10`,
`(2,0) ↦ 3/10`, `(2,1) ↦ 2/5`.  All draws lie in `[0, 1)`. -/
def sigmaC6 : RStream := fun k =>
  [0, mkRat 1 10, mkRat 1 2, mkRat 1 5, 0, mkRat 9 10, mkRat 3 10, mkRat 2 5].getD k 0

section BasicLemmas

theorem mem_rowMajorCells {N : ℕ} {p : ℕ × ℕ} :
    p ∈ rowMajorCells N ↔ p.1 < N ∧ p.2 < N := by
  obtain ⟨i, j⟩ := p
  simp only [rowMajorCells, List.mem_flatMap, List.mem_map, List.mem_range, Prod.mk.injEq]
  constructor
  · rintro ⟨a, ha, b, hb, rfl, rfl⟩
    exact ⟨ha, hb⟩
  · rintro ⟨hi, hj⟩
    exact ⟨i, hi, j, hj, rfl, rfl⟩

theorem rowMajorCells_pairwise (N : ℕ) :
    (rowMajorCells N).Pairwise fun a b => a.1 * N + a.2 < b.1 * N + b.2 := by
  rw [rowMajorCells, List.pairwise_flatMap]
  constructor
  · intro a _
    rw [List.pairwise_map]
    refine (List.pairwise_lt_range N).imp ?_
    intro jx jy h
    exact Nat.add_lt_add_left h (a * N)
  · refine (List.pairwise_lt_range N).imp ?_
    intro a b hab x hx y hy
    simp only [List.mem_map, List.mem_range] at hx hy
    obtain ⟨jx, hjx, rfl⟩ := hx
    obtain ⟨jy, hjy, rfl⟩ := hy
    show a * N + jx < b * N + jy
    calc a * N + jx < a * N + N := by omega
    _ = (a + 1) * N := by ring
    _ ≤ b * N := mul_le_mul_right' (by omega) N
    _ ≤ b * N + jy := by omega

theorem foldl_min_le (xs : List ℚ) (x : ℚ) :
    xs.foldl min x ≤ x ∧ ∀ y ∈ xs, xs.foldl min x ≤ y := by
  induction xs generalizing x with
  | nil => simp
  | cons a xs ih =>
    simp only [List.foldl_cons, List.mem_cons]
    refine ⟨le_trans (ih (min x a)).1 (min_le_left x a), ?_⟩
    intro y hy
    rcases hy with rfl | hy
    · exact le_trans (ih (min x y)).1 (min_le_right x y)
    · exact (ih (min x a)).2 y hy

theorem foldl_min_mem (xs : List ℚ) (x : ℚ) :
    xs.foldl min x = x ∨ xs.foldl min x ∈ xs := by
  induction xs generalizing x with
  | nil => simp
  | cons a xs ih =>
    simp only [List.foldl_cons, List.mem_cons]
    rcases ih (min x a) with h | h
    · rcases min_choice x a with hc | hc
      · exact Or.inl (h.trans hc)
      · exact Or.inr (Or.inl (h.trans hc))
    · exact Or.inr (Or.inr h)

theorem npMin_ok {l : List ℚ} {m : ℚ} (h : npMin l = .ok m) :
    m ∈ l ∧ ∀ y ∈ l, m ≤ y := by
  match l, h with
  | x :: xs, h =>
    simp only [npMin, Except.ok.injEq] at h
    subst h
    refine ⟨?_, ?_⟩
    · rcases foldl_min_mem xs x with h | h
      · rw [h]; exact List.mem_cons_self x xs
      · exact List.mem_cons_of_mem x h
    · intro y hy
      rcases List.mem_cons.1 hy with rfl | hy
      · exact (foldl_min_le xs y).1
      · exact (foldl_min_le xs x).2 y hy

theorem updateCell_other {mc : Mat} {r c i j : ℕ} (h : ¬(i = r ∧ j = c)) (v : ℚ) :
    updateCell mc r c v i j = mc i j := by
  simp only [updateCell, if_neg h]

theorem updateCell_diag {mc : Mat} {r c : ℕ} (hd : ∀ i, mc i i = 0)
    (hne : mc r c ≠ 0) (v : ℚ) : ∀ i, updateCell mc r c v i i = 0 := by
  intro i
  rw [updateCell]
  split
  · rename_i hrc
    exact absurd (hrc.1 ▸ hrc.2 ▸ hd i) hne
  · exact hd i

end BasicLemmas

section SelectionLemmas

/-- `find?` returns a match whose position is least: with respect to any
strictly increasing index on a pairwise-ordered list, every other match
indexes at least as high. -/
theorem find?_position {α : Type} {l : List α} {p : α → Bool} {a : α}
    (h : l.find? p = some a) (idx : α → ℕ)
    (hpw : l.Pairwise fun x y => idx x < idx y) :
    p a = true ∧ a ∈ l ∧ ∀ b ∈ l, p b = true → idx a ≤ idx b := by
  rw [List.find?_eq_some] at h
  obtain ⟨hpa, as, bs, hsplit, hbefore⟩ := h
  subst hsplit
  refine ⟨hpa, by simp, ?_⟩
  intro b hb hpb
  rcases List.mem_append.1 hb with hbas | hbbs
  · have := hbefore b hbas
    rw [hpb] at this
    simp at this
  rcases List.mem_cons.1 hbbs with rfl | hbbs
  · exact le_refl _
  · have h2 := (List.pairwise_append.1 hpw).2.1
    rw [List.pairwise_cons] at h2
    exact le_of_lt (h2.1 b hbbs)

theorem argwhereFirst_ok {l : List (ℕ × ℕ)} {mc : Mat} {m : ℚ} {p : ℕ × ℕ}
    (h : argwhereFirst l mc m = .ok p) :
    l.find? (fun q => decide (mc q.1 q.2 = m)) = some p := by
  rw [argwhereFirst] at h
  rcases hf : l.find? (fun q => decide (mc q.1 q.2 = m)) with _ | q <;> rw [hf] at h
  · cases h
  · cases h; exact hf

/-- Decompose a successful seed search into its two stages: the minimum `m`
over the values of the nonzero cells, and the first row-major cell holding
exactly `m`. -/
theorem seed_step_decomp {N : ℕ} {mc : Mat} {p : ℕ × ℕ} (h : seed_step N mc = .ok p) :
    ∃ m, npMin ((nonzeroCells N mc).map fun q => mc q.1 q.2) = .ok m ∧
      (rowMajorCells N).find? (fun q => decide (mc q.1 q.2 = m)) = some p := by
  rw [seed_step] at h
  rcases hmin : npMin ((nonzeroCells N mc).map fun q => mc q.1 q.2) with e | m <;>
    rw [hmin] at h <;> simp only [Bind.bind, Except.bind] at h
  · cases h
  · exact ⟨m, hmin, argwhereFirst_ok h⟩

/-- Decompose a successful row search the same way. -/
theorem row_min_index_decomp {N : ℕ} {mc : Mat} {r j : ℕ}
    (h : row_min_index N mc r = .ok j) :
    ∃ m, npMin (((List.range N).filter fun j2 => decide (mc r j2 ≠ 0)).map
        fun j2 => mc r j2) = .ok m ∧
      (List.range N).find? (fun j2 => decide (mc r j2 = m)) = some j := by
  rw [row_min_index] at h
  rcases hmin : npMin (((List.range N).filter fun j2 => decide (mc r j2 ≠ 0)).map
      fun j2 => mc r j2) with e | m <;>
    rw [hmin] at h <;> simp only [Bind.bind, Except.bind] at h
  · cases h
  · rcases hf : (List.range N).find? (fun j2 => decide (mc r j2 = m)) with _ | j0 <;>
      rw [hf] at h
    · cases h
    · cases h
      exact ⟨m, by first | exact hmin | rfl, hf⟩

/-- Everything the seed search guarantees about the cell it returns: the cell
is in bounds, holds a nonzero value, that value is least among all nonzero
in-bounds cells, and every other cell holding the same value comes later in
row-major order. -/
theorem seed_step_ok {N : ℕ} {mc : Mat} {p : ℕ × ℕ} (h : seed_step N mc = .ok p) :
    p.1 < N ∧ p.2 < N ∧ mc p.1 p.2 ≠ 0 ∧
    (∀ q : ℕ × ℕ, q.1 < N → q.2 < N → mc q.1 q.2 ≠ 0 → mc p.1 p.2 ≤ mc q.1 q.2) ∧
    (∀ q : ℕ × ℕ, q.1 < N → q.2 < N → mc q.1 q.2 = mc p.1 p.2 →
      p.1 * N + p.2 ≤ q.1 * N + q.2) := by
  obtain ⟨m, hmin, hfind⟩ := seed_step_decomp h
  obtain ⟨hmem, hle⟩ := npMin_ok hmin
  simp only [List.mem_map] at hmem
  obtain ⟨q0, hq0, hq0v⟩ := hmem
  have hq0ne : mc q0.1 q0.2 ≠ 0 := by simpa using List.of_mem_filter hq0
  obtain ⟨hpv, hpmem, hfirst⟩ :=
    find?_position hfind (fun q => q.1 * N + q.2) (rowMajorCells_pairwise N)
  have hpv : mc p.1 p.2 = m := of_decide_eq_true hpv
  obtain ⟨hp1, hp2⟩ := mem_rowMajorCells.1 hpmem
  have hne : mc p.1 p.2 ≠ 0 := by rw [hpv, ← hq0v]; exact hq0ne
  refine ⟨hp1, hp2, hne, ?_, ?_⟩
  · intro q hq1 hq2 hqne
    rw [hpv]
    refine hle _ (List.mem_map.2 ⟨q, ?_, rfl⟩)
    exact List.mem_filter.2 ⟨mem_rowMajorCells.2 ⟨hq1, hq2⟩, by simpa using hqne⟩
  · intro q hq1 hq2 hqv
    exact hfirst q (mem_rowMajorCells.2 ⟨hq1, hq2⟩) (decide_eq_true (hqv.trans hpv))

/-- The same characterization for the per-row search of the extension loop. -/
theorem row_min_index_ok {N : ℕ} {mc : Mat} {r j : ℕ} (h : row_min_index N mc r = .ok j) :
    j < N ∧ mc r j ≠ 0 ∧
    (∀ j2, j2 < N → mc r j2 ≠ 0 → mc r j ≤ mc r j2) ∧
    (∀ j2, j2 < N → mc r j2 = mc r j → j ≤ j2) := by
  obtain ⟨m, hmin, hfind⟩ := row_min_index_decomp h
  obtain ⟨hmem, hle⟩ := npMin_ok hmin
  simp only [List.mem_map] at hmem
  obtain ⟨j1, hj1, hj1v⟩ := hmem
  have hj1ne : mc r j1 ≠ 0 := by simpa using List.of_mem_filter hj1
  obtain ⟨hjv, hjmem, hfirst⟩ :=
    find?_position hfind (fun j2 => j2) (List.pairwise_lt_range N)
  have hjv : mc r j = m := of_decide_eq_true hjv
  have hjN : j < N := List.mem_range.1 hjmem
  have hne : mc r j ≠ 0 := by rw [hjv, ← hj1v]; exact hj1ne
  refine ⟨hjN, hne, ?_, ?_⟩
  · intro j2 hj2 hj2ne
    rw [hjv]
    refine hle _ (List.mem_map.2 ⟨j2, ?_, rfl⟩)
    exact List.mem_filter.2 ⟨List.mem_range.2 hj2, by simpa using hj2ne⟩
  · intro j2 hj2 hj2v
    exact hfirst j2 (List.mem_range.2 hj2) (decide_eq_true (hj2v.trans hjv))

end SelectionLemmas

section RunLemmas

theorem initialize_diag (N : ℕ) (σ : RStream) :
    ∀ i, initialize_markov_chain N σ i i = 0 := fun _ => if_pos rfl

/-- What one full run of the extension loop guarantees, by induction over its
remaining iterations: it appends exactly `k` in-bounds elements, never repeats
the immediately preceding element, keeps the diagonal at zero, and transforms
the matrix by exactly one reinforcement per appended element. -/
theorem extend_loop_ok {N : ℕ} : ∀ {k prev mc σ rest mc2 σ2},
    extend_loop N k prev mc σ = .ok (rest, mc2, σ2) → (∀ i, mc i i = 0) →
    rest.length = k ∧ List.Chain' (· ≠ ·) (prev :: rest) ∧ (∀ x ∈ rest, x < N) ∧
    (∀ i, mc2 i i = 0) ∧ mc2 = applyTransitions mc ((prev :: rest).zip rest) σ := by
  intro k
  induction k with
  | zero =>
    intro prev mc σ rest mc2 σ2 h hd
    simp only [extend_loop, Except.ok.injEq, Prod.mk.injEq] at h
    obtain ⟨rfl, rfl, rfl⟩ := h
    simp [applyTransitions, hd]
  | succ k ih =>
    intro prev mc σ rest mc2 σ2 h hd
    rw [extend_loop] at h
    rcases hrm : row_min_index N mc prev with e | j <;>
      rw [hrm] at h <;> simp only [Bind.bind, Except.bind] at h
    · cases h
    rcases hext : extend_loop N k j
        (updateCell mc prev j (reinforce (mc prev j) (σ 0))) (shift σ)
      with e | out <;> rw [hext] at h <;> simp only [Bind.bind, Except.bind] at h
    · cases h
    obtain ⟨rest1, mc21, σ21⟩ := out
    simp only [Except.ok.injEq, Prod.mk.injEq] at h
    obtain ⟨rfl, rfl, rfl⟩ := h
    obtain ⟨hjN, hjne, -, -⟩ := row_min_index_ok hrm
    have hjprev : j ≠ prev := fun hcontra => hjne (hcontra ▸ hd prev)
    have hd1 : ∀ i, updateCell mc prev j (reinforce (mc prev j) (σ 0)) i i = 0 :=
      updateCell_diag hd hjne _
    obtain ⟨hlen, hchain, hmem, hd2, happ⟩ := ih hext hd1
    refine ⟨by simp [hlen], ?_, ?_, hd2, ?_⟩
    · exact List.chain'_cons.2 ⟨fun hc => hjprev hc.symm, hchain⟩
    · intro x hx
      rcases List.mem_cons.1 hx with rfl | hx
      · exact hjN
      · exact hmem x hx
    · rw [happ]
      simp only [List.zip_cons_cons, applyTransitions]
      rfl

/-- What one call of the sequence builder guarantees, given a zero diagonal:
the returned sequence has length `2 + (N - 2)`, starts with the seed pair,
never repeats consecutively, stays inside the alphabet, the final matrix keeps
the zero diagonal, and the matrix is transformed by exactly one reinforcement
per transition of the returned sequence, in order. -/
theorem generate_sequence_ok {N : ℕ} {mc : Mat} {σ : RStream} {s : List ℕ}
    {mc2 : Mat} {σ2 : RStream} (h : generate_sequence N mc σ = .ok (s, mc2, σ2))
    (hd : ∀ i, mc i i = 0) :
    s.length = 2 + (N - 2) ∧ List.Chain' (· ≠ ·) s ∧ (∀ x ∈ s, x < N) ∧
    (∀ i, mc2 i i = 0) ∧ mc2 = applyTransitions mc (transitionsOf s) σ := by
  rw [generate_sequence] at h
  rcases hseed : seed_step N mc with e | rc <;>
    rw [hseed] at h <;> simp only [Bind.bind, Except.bind] at h
  · cases h
  obtain ⟨r, c⟩ := rc
  rcases hext : extend_loop N (N - 2) c
      (updateCell mc r c (reinforce (mc r c) (σ 0))) (shift σ)
    with e | out <;> rw [hext] at h <;> simp only [Bind.bind, Except.bind] at h
  · cases h
  obtain ⟨rest1, mc21, σ21⟩ := out
  simp only [Except.ok.injEq, Prod.mk.injEq] at h
  obtain ⟨rfl, rfl, rfl⟩ := h
  obtain ⟨hr, hc, hne, -, -⟩ := seed_step_ok hseed
  have hrc : r ≠ c := fun hcontra => hne (by simpa [hcontra] using hd c)
  have hd1 : ∀ i, updateCell mc r c (reinforce (mc r c) (σ 0)) i i = 0 :=
    updateCell_diag hd hne _
  obtain ⟨hlen, hchain, hmem, hd2, happ⟩ := extend_loop_ok hext hd1
  refine ⟨by simp [hlen]; omega, ?_, ?_, hd2, ?_⟩
  · exact List.chain'_cons.2 ⟨hrc, hchain⟩
  · intro x hx
    rcases List.mem_cons.1 hx with rfl | hx
    · exact hr
    rcases List.mem_cons.1 hx with rfl | hx
    · exact hc
    · exact hmem x hx
  · rw [happ]
    simp only [transitionsOf, List.tail_cons, List.zip_cons_cons, applyTransitions]
    rfl

/-- The driver `generate_sequences` yields only sequences with the guarantees
of `generate_sequence_ok`, and keeps the diagonal invariant through all `M`
calls. -/
theorem generate_sequences_ok {N : ℕ} : ∀ {M : ℕ} {mc : Mat} {σ : RStream}
    {out : List (List ℕ) × Mat × RStream},
    generate_sequences N M mc σ = .ok out → (∀ i, mc i i = 0) →
    (∀ s ∈ out.1, s.length = 2 + (N - 2) ∧ List.Chain' (· ≠ ·) s ∧ ∀ x ∈ s, x < N) ∧
    (∀ i, out.2.1 i i = 0) := by
  intro M
  induction M with
  | zero =>
    intro mc σ out h hd
    simp only [generate_sequences, Except.ok.injEq] at h
    obtain rfl := h.symm
    exact ⟨by simp, hd⟩
  | succ M ih =>
    intro mc σ out h hd
    rw [generate_sequences] at h
    rcases hgen : generate_sequence N mc σ with e | out1 <;>
      rw [hgen] at h <;> simp only [Bind.bind, Except.bind] at h
    · cases h
    obtain ⟨s1, mc1, σ1⟩ := out1
    rcases hrec : generate_sequences N M mc1 σ1 with e | out2 <;>
      rw [hrec] at h <;> simp only [Bind.bind, Except.bind] at h
    · cases h
    obtain ⟨ss, mc2, σ2⟩ := out2
    simp only [Except.ok.injEq] at h
    obtain rfl := h.symm
    obtain ⟨hlen1, hchain1, hmem1, hd1, -⟩ := generate_sequence_ok hgen hd
    obtain ⟨hall, hd2⟩ := ih hrec hd1
    refine ⟨?_, hd2⟩
    intro s hs
    rcases List.mem_cons.1 hs with rfl | hs
    · exact ⟨hlen1, hchain1, hmem1⟩
    · exact hall s hs

end RunLemmas

section FrameLemmas

/-- The matrix effect of the extension loop, with no assumption on the input
matrix: the appended elements are in bounds and the final matrix is the input
matrix with one reinforcement applied per appended element, in order. -/
theorem extend_loop_matrix {N : ℕ} : ∀ {k prev mc σ rest mc2 σ2},
    extend_loop N k prev mc σ = .ok (rest, mc2, σ2) →
    rest.length = k ∧ (∀ x ∈ rest, x < N) ∧
    mc2 = applyTransitions mc ((prev :: rest).zip rest) σ := by
  intro k
  induction k with
  | zero =>
    intro prev mc σ rest mc2 σ2 h
    simp only [extend_loop, Except.ok.injEq, Prod.mk.injEq] at h
    obtain ⟨rfl, rfl, rfl⟩ := h
    simp [applyTransitions]
  | succ k ih =>
    intro prev mc σ rest mc2 σ2 h
    rw [extend_loop] at h
    rcases hrm : row_min_index N mc prev with e | j <;>
      rw [hrm] at h <;> simp only [Bind.bind, Except.bind] at h
    · cases h
    rcases hext : extend_loop N k j
        (updateCell mc prev j (reinforce (mc prev j) (σ 0))) (shift σ)
      with e | out <;> rw [hext] at h <;> simp only [Bind.bind, Except.bind] at h
    · cases h
    obtain ⟨rest1, mc21, σ21⟩ := out
    simp only [Except.ok.injEq, Prod.mk.injEq] at h
    obtain ⟨rfl, rfl, rfl⟩ := h
    obtain ⟨hjN, -, -, -⟩ := row_min_index_ok hrm
    obtain ⟨hlen, hmem, happ⟩ := ih hext
    refine ⟨by simp [hlen], ?_, ?_⟩
    · intro x hx
      rcases List.mem_cons.1 hx with rfl | hx
      · exact hjN
      · exact hmem x hx
    · rw [happ]
      simp only [List.zip_cons_cons, applyTransitions]
      rfl

/-- The matrix effect of one sequence-builder call, with no assumption on the
input matrix: the sequence is in bounds and the final matrix is the input
matrix with exactly one reinforcement per transition of the sequence. -/
theorem generate_sequence_matrix {N : ℕ} {mc : Mat} {σ : RStream} {s : List ℕ}
    {mc2 : Mat} {σ2 : RStream} (h : generate_sequence N mc σ = .ok (s, mc2, σ2)) :
    s.length = 2 + (N - 2) ∧ (∀ x ∈ s, x < N) ∧
    mc2 = applyTransitions mc (transitionsOf s) σ := by
  rw [generate_sequence] at h
  rcases hseed : seed_step N mc with e | rc <;>
    rw [hseed] at h <;> simp only [Bind.bind, Except.bind] at h
  · cases h
  obtain ⟨r, c⟩ := rc
  rcases hext : extend_loop N (N - 2) c
      (updateCell mc r c (reinforce (mc r c) (σ 0))) (shift σ)
    with e | out <;> rw [hext] at h <;> simp only [Bind.bind, Except.bind] at h
  · cases h
  obtain ⟨rest1, mc21, σ21⟩ := out
  simp only [Except.ok.injEq, Prod.mk.injEq] at h
  obtain ⟨rfl, rfl, rfl⟩ := h
  obtain ⟨hr, hc, -, -, -⟩ := seed_step_ok hseed
  obtain ⟨hlen, hmem, happ⟩ := extend_loop_matrix hext
  refine ⟨by simp [hlen]; omega, ?_, ?_⟩
  · intro x hx
    rcases List.mem_cons.1 hx with rfl | hx
    · exact hr
    rcases List.mem_cons.1 hx with rfl | hx
    · exact hc
    · exact hmem x hx
  · rw [happ]
    simp only [transitionsOf, List.tail_cons, List.zip_cons_cons, applyTransitions]
    rfl

/-- Cells not listed among the transitions are untouched by the
reinforcement fold. -/
theorem applyTransitions_frame : ∀ (ts : List (ℕ × ℕ)) (mc : Mat) (σ : RStream)
    (r c : ℕ), (r, c) ∉ ts → applyTransitions mc ts σ r c = mc r c := by
  intro ts
  induction ts with
  | nil => intro mc σ r c _; rfl
  | cons ab rest ih =>
    obtain ⟨a, b⟩ := ab
    intro mc σ r c hnot
    rw [applyTransitions, ih _ _ _ _ (fun hc => hnot (List.mem_cons_of_mem _ hc))]
    refine updateCell_other ?_ _
    rintro ⟨rfl, rfl⟩
    exact hnot (List.mem_cons_self _ _)

/-- Both components of every transition of a sequence are elements of the
sequence. -/
theorem transitionsOf_mem {s : List ℕ} {a b : ℕ} (h : (a, b) ∈ transitionsOf s) :
    a ∈ s ∧ b ∈ s := by
  have := List.of_mem_zip h
  exact ⟨this.1, List.tail_subset s this.2⟩

theorem transitionsOf_length (s : List ℕ) : (transitionsOf s).length = s.length - 1 := by
  rw [transitionsOf, List.length_zip, List.length_tail]
  omega

end FrameLemmas

section CountingLemmas

theorem count_pairs_entry (N : ℕ) (s : List ℕ) (m : Mat) (r c : ℕ) :
    count_pairs N s m r c = m r c +
      (((List.range (N - 1)).filter fun i =>
        decide (s.getD i 0 = r ∧ s.getD (i + 1) 0 = c)).length : ℚ) := by
  rw [count_pairs]
  generalize List.range (N - 1) = l
  induction l generalizing m with
  | nil => simp
  | cons a l ih =>
    simp only [List.foldl_cons, List.filter_cons]
    rw [ih]
    by_cases hpred : s.getD a 0 = r ∧ s.getD (a + 1) 0 = c
    · rw [if_pos (decide_eq_true hpred)]
      have hb : bump m (s.getD a 0) (s.getD (a + 1) 0) r c = m r c + 1 := by
        rw [bump, if_pos ⟨hpred.1.symm, hpred.2.symm⟩]
      rw [hb]
      simp only [List.length_cons]
      push_cast
      ring
    · rw [if_neg (by simpa using hpred)]
      have hb : bump m (s.getD a 0) (s.getD (a + 1) 0) r c = m r c := by
        rw [bump, if_neg ?_]
        rintro ⟨rfl, rfl⟩
        exact hpred ⟨rfl, rfl⟩
      rw [hb]

theorem counts_entry (N : ℕ) (sequences : List (List ℕ)) (m : Mat) (r c : ℕ) :
    (sequences.foldl (fun acc s => count_pairs N s acc) m) r c =
      m r c + spec_transition_count N sequences r c := by
  induction sequences generalizing m with
  | nil => simp [spec_transition_count]
  | cons s ss ih =>
    simp only [List.foldl_cons]
    rw [ih, count_pairs_entry]
    simp only [spec_transition_count, List.map_cons, List.sum_cons]
    push_cast
    ring

theorem list_sum_map_div {α : Type} (l : List α) (f : α → ℚ) (c : ℚ) :
    (l.map fun j => f j / c).sum = (l.map f).sum / c := by
  induction l with
  | nil => simp
  | cons a l ih => simp [ih, add_div]

theorem row_sum_normalize (N : ℕ) (m : Mat) (i : ℕ) (h : row_sum N m i ≠ 0) :
    row_sum N (normalize_rows N m) i = 1 := by
  have : row_sum N (normalize_rows N m) i = row_sum N m i / row_sum N m i := by
    rw [row_sum, row_sum]
    simpa [normalize_rows] using list_sum_map_div (List.range N) (fun j => m i j) (row_sum N m i)
  rw [this, div_self h]

end CountingLemmas

section Claims

/-- Claim C1: for every `N ≥ 2`, every `M ≥ 1` and every initial transition
matrix produced by the initializer, each sequence returned by the sequence
builder — and hence every sequence in the set returned by
`generate_sequences` — has length exactly `N` and contains no two consecutive
equal elements. -/
theorem C1_sequence_length_and_no_consecutive_repeat (N M : ℕ) (σI σ : RStream)
    (out : List (List ℕ) × Mat × RStream) (hN : 2 ≤ N) (hM : 1 ≤ M)
    (h : generate_sequences N M (initialize_markov_chain N σI) σ = .ok out) :
    (∀ s mc2 σ2, generate_sequence N (initialize_markov_chain N σI) σ = .ok (s, mc2, σ2) →
      s.length = N ∧ List.Chain' (· ≠ ·) s) ∧
    ∀ s ∈ out.1, s.length = N ∧ List.Chain' (· ≠ ·) s := by
  constructor
  · intro s mc2 σ2 hgen
    obtain ⟨hlen, hchain, -, -, -⟩ := generate_sequence_ok hgen (initialize_diag N σI)
    exact ⟨by omega, hchain⟩
  · intro s hs
    obtain ⟨hall, -⟩ := generate_sequences_ok h (initialize_diag N σI)
    obtain ⟨hlen, hchain, -⟩ := hall s hs
    exact ⟨by omega, hchain⟩

/-- Concrete instance of C1: the run with `N = 2`, `M = 1` on the matrix
initialized from `sigmaW` returns exactly the sequence `[0, 1]`. -/
theorem C1_witness :
    ([0, 1] : List ℕ).length = 2 ∧ List.Chain' (· ≠ ·) ([0, 1] : List ℕ) :=
  (C1_sequence_length_and_no_consecutive_repeat 2 1 sigmaW sigmaZero
    ([[0, 1]],
      updateCell (initialize_markov_chain 2 sigmaW) 0 1
        (reinforce (initialize_markov_chain 2 sigmaW 0 1) (sigmaZero 0)),
      shift sigmaZero)
    (by decide) (by decide) rfl).2 [0, 1] (List.mem_singleton.2 rfl)

/-- Claim C2: the diagonal is exactly zero immediately after initialization,
stays zero across every single cell update the builder performs (the seed
update and each extension-loop update, each seeing a zero-diagonal matrix),
and is zero in the matrix returned by every builder call and every full run. -/
theorem C2_diagonal_zero_invariant (N : ℕ) (σI σ : RStream) (mc : Mat)
    (hd : ∀ i, mc i i = 0) :
    (∀ i, initialize_markov_chain N σI i i = 0) ∧
    (∀ p : ℕ × ℕ, ∀ v : ℚ, seed_step N mc = .ok p →
      ∀ i, updateCell mc p.1 p.2 v i i = 0) ∧
    (∀ r j : ℕ, ∀ v : ℚ, row_min_index N mc r = .ok j →
      ∀ i, updateCell mc r j v i i = 0) ∧
    (∀ out, generate_sequence N mc σ = .ok out → ∀ i, out.2.1 i i = 0) ∧
    (∀ M out, generate_sequences N M mc σ = .ok out → ∀ i, out.2.1 i i = 0) := by
  refine ⟨initialize_diag N σI, ?_, ?_, ?_, ?_⟩
  · intro p v hp
    obtain ⟨-, -, hne, -, -⟩ := seed_step_ok hp
    exact updateCell_diag hd hne v
  · intro r j v hj
    obtain ⟨-, hne, -, -⟩ := row_min_index_ok hj
    exact updateCell_diag hd hne v
  · rintro ⟨s, mc2, σ2⟩ hgen
    obtain ⟨-, -, -, hd2, -⟩ := generate_sequence_ok hgen hd
    exact hd2
  · intro M out hgens
    obtain ⟨-, hd2⟩ := generate_sequences_ok hgens hd
    exact hd2

/-- Concrete instance of C2 at `N = 2` and diagonal position `5`. -/
theorem C2_witness : initialize_markov_chain 2 sigmaW 5 5 = 0 :=
  (C2_diagonal_zero_invariant 2 sigmaW sigmaZero (initialize_markov_chain 2 sigmaW)
    (fun _ => if_pos rfl)).1 5

/-- Claim C3 is false as stated: under the initializer stream `sigmaC3`
(all draws in `[0, 1)`, with an exact `0.0` drawn for cell `(0, 1)`), the
off-diagonal cell `(0, 1)` holds the strictly least off-diagonal value, yet
the seed search selects `(1, 0)`: the candidate set of the code's searches is
the set of nonzero cells, not the set of off-diagonal cells. -/
theorem C3_counterexample :
    ValidStream sigmaC3 ∧
    initialize_markov_chain 2 sigmaC3 0 1 = 0 ∧
    initialize_markov_chain 2 sigmaC3 0 1 < initialize_markov_chain 2 sigmaC3 1 0 ∧
    seed_step 2 (initialize_markov_chain 2 sigmaC3) = .ok (1, 0) := by
  refine ⟨?_, by decide, by decide, rfl⟩
  intro i
  simp only [sigmaC3]
  split <;> exact ⟨by decide, by decide⟩

/-- Claim C3 amended: in both minimum searches the candidate set is exactly
the set of nonzero cells (of the matrix, resp. of the previous element's row)
— which coincides with the off-diagonal cells whenever the diagonal is zero
and no off-diagonal cell holds an exact zero — and among candidates attaining
the minimum the first in row-major scan order is selected. -/
theorem C3_amended_nonzero_candidates_row_major_tie_break (N : ℕ) (mc : Mat)
    (p : ℕ × ℕ) (r j : ℕ)
    (hseed : seed_step N mc = .ok p) (hrow : row_min_index N mc r = .ok j) :
    (p.1 < N ∧ p.2 < N ∧ mc p.1 p.2 ≠ 0 ∧
      (∀ q : ℕ × ℕ, q.1 < N → q.2 < N → mc q.1 q.2 ≠ 0 → mc p.1 p.2 ≤ mc q.1 q.2) ∧
      (∀ q : ℕ × ℕ, q.1 < N → q.2 < N → mc q.1 q.2 = mc p.1 p.2 →
        p.1 * N + p.2 ≤ q.1 * N + q.2)) ∧
    (j < N ∧ mc r j ≠ 0 ∧
      (∀ j2, j2 < N → mc r j2 ≠ 0 → mc r j ≤ mc r j2) ∧
      (∀ j2, j2 < N → mc r j2 = mc r j → j ≤ j2)) :=
  ⟨seed_step_ok hseed, row_min_index_ok hrow⟩

/-- Concrete instance of the amended C3 at the matrix initialized from
`sigmaW`, whose seed search returns `(0, 1)` and whose row-0 search returns
column `1`. -/
theorem C3_amended_witness : ((0 : ℕ), (1 : ℕ)).1 < 2 :=
  (C3_amended_nonzero_candidates_row_major_tie_break 2
    (initialize_markov_chain 2 sigmaW) (0, 1) 0 1 rfl rfl).1.1

/-- Claim C4: every reinforcement replaces the selected cell's value `v` with
`⌈v⌉` plus the fresh draw; for `v ∈ (0, 1)` the new value is at least `1`,
hence exceeds every value still in the initial range `[0, 1)`. -/
theorem C4_reinforcement_ceil_plus_draw (v r w : ℚ) (hv0 : 0 < v) (hv1 : v < 1)
    (hr0 : 0 ≤ r) (hr1 : r < 1) (hw0 : 0 ≤ w) (hw1 : w < 1) :
    reinforce v r = (⌈v⌉ : ℚ) + r ∧ 1 ≤ reinforce v r ∧ w < reinforce v r := by
  have hceil : ⌈v⌉ = 1 := by
    rw [Int.ceil_eq_iff]
    push_cast
    exact ⟨by linarith, by linarith⟩
  refine ⟨rfl, ?_, ?_⟩
  · rw [reinforce, hceil]; push_cast; linarith
  · rw [reinforce, hceil]; push_cast; linarith

/-- Concrete instance of C4 at `v = 1/2`, `r = 1/3`, `w = 2/3`. -/
theorem C4_witness :
    reinforce (mkRat 1 2) (mkRat 1 3) = (⌈(mkRat 1 2 : ℚ)⌉ : ℚ) + mkRat 1 3 ∧
    1 ≤ reinforce (mkRat 1 2) (mkRat 1 3) ∧
    mkRat 2 3 < reinforce (mkRat 1 2) (mkRat 1 3) :=
  C4_reinforcement_ceil_plus_draw (mkRat 1 2) (mkRat 1 3) (mkRat 2 3)
    (by decide) (by decide) (by decide) (by decide) (by decide) (by decide)

/-- Claim C5: for every nonempty set of equal-length sequences, the derived
matrix is exactly the consecutive-pair count matrix with each row divided by
its own sum, and every row whose total count is nonzero sums to exactly `1`. -/
theorem C5_probability_matrix_counts_and_row_sums (sequences : List (List ℕ))
    (N : ℕ) (hne : sequences ≠ []) (hlen : ∀ s ∈ sequences, s.length = N) :
    calculate_transition_probability_matrix sequences =
      .ok (N, normalize_rows N (spec_transition_count N sequences)) ∧
    ∀ i, row_sum N (spec_transition_count N sequences) i ≠ 0 →
      row_sum N (normalize_rows N (spec_transition_count N sequences)) i = 1 := by
  constructor
  · match sequences, hne with
    | s0 :: rest, _ =>
      have hN : s0.length = N := hlen s0 (List.mem_cons_self _ _)
      subst hN
      have hcount : (s0 :: rest).foldl (fun m s => count_pairs s0.length s m)
          (fun _ _ => 0) = spec_transition_count s0.length (s0 :: rest) := by
        funext r c
        rw [counts_entry]
        simp
      rw [calculate_transition_probability_matrix, hcount]
  · intro i hi
    exact row_sum_normalize N _ i hi

/-- Concrete instance of C5 on the singleton set `[[0, 1]]`. -/
theorem C5_witness :
    calculate_transition_probability_matrix [[0, 1]] =
      .ok (2, normalize_rows 2 (spec_transition_count 2 [[0, 1]])) :=
  (C5_probability_matrix_counts_and_row_sums [[0, 1]] 2 (by decide) (by decide)).1

/-- Claim C6 is false as stated: from the matrix the initializer produces
under `sigmaC6` (all draws in `[0, 1)`), the builder returns the sequence
`[0, 1, 0]` of length `N = 3` in which the symbol `2` never appears — a
generated sequence need not contain every symbol of the alphabet. -/
theorem C6_counterexample :
    ValidStream sigmaC6 ∧ ValidStream sigmaZero ∧
    (generate_sequence 3 (initialize_markov_chain 3 sigmaC6) sigmaZero).map
      (fun out => out.1) = .ok [0, 1, 0] ∧
    (2 : ℕ) < 3 ∧ (2 : ℕ) ∉ ([0, 1, 0] : List ℕ) := by
  refine ⟨?_, fun _ => ⟨le_refl 0, by show (0 : ℚ) < 1; decide⟩, rfl, by decide, by decide⟩
  intro i
  by_cases h8 : i < 8
  · interval_cases i <;> exact ⟨by decide, by decide⟩
  · have h0 : sigmaC6 i = 0 := by
      simp only [sigmaC6]
      exact List.getD_eq_default _ _ (by simp; omega)
    rw [h0]
    exact ⟨le_refl 0, by decide⟩

/-- Claim C6 amended: every sequence the builder returns from an
initializer-produced matrix with `N ≥ 2` has length exactly `N`, all its
symbols lie in `[0, N)`, and no two consecutive elements are equal — but not
every symbol of the alphabet need appear (non-adjacent repeats may crowd
some symbols out). -/
theorem C6_amended_length_range_no_repeat (N : ℕ) (σI σ : RStream) (s : List ℕ)
    (mc2 : Mat) (σ2 : RStream) (hN : 2 ≤ N)
    (h : generate_sequence N (initialize_markov_chain N σI) σ = .ok (s, mc2, σ2)) :
    s.length = N ∧ (∀ x ∈ s, x < N) ∧ List.Chain' (· ≠ ·) s := by
  obtain ⟨hlen, hchain, hmem, -, -⟩ := generate_sequence_ok h (initialize_diag N σI)
  exact ⟨by omega, hmem, hchain⟩

/-- Concrete instance of the amended C6 on the `N = 3` run from `sigmaC6`. -/
theorem C6_amended_witness :
    ([0, 1, 0] : List ℕ).length = 3 ∧ (∀ x ∈ ([0, 1, 0] : List ℕ), x < 3) ∧
    List.Chain' (· ≠ ·) ([0, 1, 0] : List ℕ) :=
  C6_amended_length_range_no_repeat 3 sigmaC6 sigmaZero [0, 1, 0] _ _
    (by decide) rfl

/-- Claim C7 is false as stated: for `N = 1` the matrix initializer performs
no validation and succeeds (returning the 1×1 zero matrix), and the sequence
builder then fails with the generic empty-selection `ValueError` of `np.min`;
no dedicated `InvalidDimension` error exists anywhere in the code. -/
theorem C7_counterexample :
    ValidStream sigmaHalf ∧
    initialize_markov_chain 1 sigmaHalf 0 0 = 0 ∧
    generate_sequence 1 (initialize_markov_chain 1 sigmaHalf) sigmaZero =
      .error .valueError :=
  ⟨fun _ => ⟨by show (0 : ℚ) ≤ mkRat 1 2; decide, by show (mkRat 1 2 : ℚ) < 1; decide⟩,
    by decide, rfl⟩

/-- Claim C7 amended: for every `N < 2` no sequence is produced, but not via
a dedicated `InvalidDimension` error: initialization succeeds without
validation and the builder's seed search fails with the generic `ValueError`
raised by `np.min` on an empty selection. -/
theorem C7_amended_generic_failure_for_small_N (N : ℕ) (σI σ : RStream)
    (hN : N < 2) :
    generate_sequence N (initialize_markov_chain N σI) σ = .error .valueError := by
  match N, hN with
  | 0, _ => rfl
  | 1, _ => rfl

/-- Concrete instance of the amended C7 at `N = 1`. -/
theorem C7_amended_witness :
    generate_sequence 1 (initialize_markov_chain 1 sigmaHalf) sigmaZero =
      .error .valueError :=
  C7_amended_generic_failure_for_small_N 1 sigmaHalf sigmaZero (by decide)

/-- Claim C8 is false as stated: with `M = 0` the sequence generator returns
an empty sequence set successfully — the code's error vocabulary has no
`InvalidCount` — and the pipeline then fails later, inside the
probability-matrix computation, with an index error on `sequences[0]`. -/
theorem C8_counterexample :
    generate_sequences 2 0 (initialize_markov_chain 2 sigmaW) sigmaZero =
      .ok ([], initialize_markov_chain 2 sigmaW, sigmaZero) ∧
    generate_balanced_sequences 2 0 sigmaW sigmaZero = .error .indexError :=
  ⟨rfl, rfl⟩

/-- Claim C8 amended: for `M < 1` (that is, `M = 0`) no `InvalidCount` error
is raised: the generator returns the empty sequence set, and the pipeline
fails only afterwards, when the probability-matrix step indexes `sequences[0]`
of the empty set, with an index error unrelated to the count validation the
spec prescribes. -/
theorem C8_amended_empty_result_then_index_error (N : ℕ) (mc : Mat)
    (σnp σ : RStream) :
    generate_sequences N 0 mc σ = .ok ([], mc, σ) ∧
    calculate_transition_probability_matrix [] = .error .indexError ∧
    generate_balanced_sequences N 0 σnp σ = .error .indexError :=
  ⟨rfl, rfl, rfl⟩

/-- Claim C9: the pipeline is a deterministic function of `N`, `M` and the
two random streams — two runs with identical inputs and pointwise-equal
random streams produce identical sequence sets and identical probability
matrices. -/
theorem C9_deterministic_pipeline (N M : ℕ) (σnp σnp2 σpy σpy2 : RStream)
    (h1 : ∀ i, σnp i = σnp2 i) (h2 : ∀ i, σpy i = σpy2 i) :
    generate_balanced_sequences N M σnp σpy =
      generate_balanced_sequences N M σnp2 σpy2 := by
  rw [funext h1, funext h2]

/-- Concrete instance of C9 at `N = 2`, `M = 1`. -/
theorem C9_witness :
    generate_balanced_sequences 2 1 sigmaW sigmaZero =
      generate_balanced_sequences 2 1 sigmaW sigmaZero :=
  C9_deterministic_pipeline 2 1 sigmaW sigmaW sigmaZero sigmaZero
    (fun _ => rfl) (fun _ => rfl)

/-- Claim C10: a successful builder call transforms the matrix by exactly one
reinforcement per transition `(s[i], s[i+1])` of the returned sequence, in
order — `N - 1` reinforcements in total — so every cell outside the
transition list keeps its value, and in particular every cell outside the
`N × N` region is untouched (the shape is preserved). -/
theorem C10_frame_only_transition_cells_change (N : ℕ) (mc : Mat) (σ : RStream)
    (s : List ℕ) (mc2 : Mat) (σ2 : RStream) (hN : 2 ≤ N)
    (h : generate_sequence N mc σ = .ok (s, mc2, σ2)) :
    mc2 = applyTransitions mc (transitionsOf s) σ ∧
    (transitionsOf s).length = N - 1 ∧
    (∀ r c, (r, c) ∉ transitionsOf s → mc2 r c = mc r c) ∧
    (∀ r c, N ≤ r ∨ N ≤ c → mc2 r c = mc r c) := by
  obtain ⟨hlen, hmem, happ⟩ := generate_sequence_matrix h
  have hframe : ∀ r c, (r, c) ∉ transitionsOf s → mc2 r c = mc r c := by
    intro r c hrc
    rw [happ]
    exact applyTransitions_frame _ _ _ _ _ hrc
  refine ⟨happ, ?_, hframe, ?_⟩
  · rw [transitionsOf_length, hlen]; omega
  · intro r c hout
    refine hframe r c fun hmem2 => ?_
    obtain ⟨hr, hc⟩ := transitionsOf_mem hmem2
    rcases hout with hout | hout
    · exact absurd (hmem r hr) (by omega)
    · exact absurd (hmem c hc) (by omega)

/-- Concrete instance of C10: in the `N = 2` run from `sigmaW` the diagonal
cell `(1, 1)` is not a transition of the returned sequence `[0, 1]` and keeps
its value. -/
theorem C10_witness :
    updateCell (initialize_markov_chain 2 sigmaW) 0 1
      (reinforce (initialize_markov_chain 2 sigmaW 0 1) (sigmaZero 0)) 1 1 =
    initialize_markov_chain 2 sigmaW 1 1 :=
  (C10_frame_only_transition_cells_change 2 (initialize_markov_chain 2 sigmaW)
    sigmaZero [0, 1] _ _ (by decide) rfl).2.2.1 1 1 (by decide)

end Claims
